import Mathlib

/-!
Shallow embedding of the trace-splitting and threshold-extraction engine of
`oect.py` (class OECT), together with theorems settling the specification
claims about it.

Voltages and currents are modelled as rationals (the Python floats of the
source), list-valued numpy arrays as `List ℚ`.  The numerical collaborators
that the source delegates to (`scipy` spline/CWT peak search inside
`_find_peak`, the external `deriv.gm_deriv` module) are represented as
explicit function parameters or spec-modelled definitions, while every piece
of discrete logic of `oect.py` itself (slicing, tolerance comparison, retry,
filtering, selection, state updates, exception propagation) is translated
directly from the source.
-/

namespace OECTProc

/-! ## Definitions: numpy/scipy primitives and the embedded oect.py operations -/

/-- Default absolute tolerance of `np.allclose` (1e-08). -/
def npAtol : ℚ := 1 / 100000000

/-- Default relative tolerance of `np.allclose` (1e-05). -/
def npRtol : ℚ := 1 / 100000

/-- Model of `np.allclose(x, y)` on equal-length 1-d arrays:
all componentwise `|a - b| <= atol + rtol * |b|`.  (In `_reverse` the two
compared windows always have equal length; the length guard mirrors the
broadcasting requirement.) -/
def allclose (x y : List ℚ) : Bool :=
  decide (x.length = y.length) &&
    (x.zip y).all (fun p => decide (|p.1 - p.2| ≤ npAtol + npRtol * |p.2|))

/-- Model of `np.max` on a 1-d array: the maximum element; `none` models the
ValueError raised on an empty array. -/
def npMax : List ℚ → Option ℚ
  | [] => none
  | a :: l =>
    match npMax l with
    | none => some a
    | some m => some (max a m)

/-- Model of `np.min` on a 1-d array: the minimum element; `none` models the
ValueError raised on an empty array. -/
def npMin : List ℚ → Option ℚ
  | [] => none
  | a :: l =>
    match npMin l with
    | none => some a
    | some m => some (min a m)

/-- Model of `np.argmax`: index of the first occurrence of the maximum
(0 on the empty array, where numpy raises instead; the callers below only use
it on nonempty arrays). -/
def npArgmax : List ℚ → ℕ
  | [] => 0
  | a :: l =>
    match npMax l with
    | none => 0
    | some m => if m ≤ a then 0 else npArgmax l + 1

/-- Model of `np.argmin`: index of the first occurrence of the minimum
(0 on the empty array, where numpy raises instead). -/
def npArgmin : List ℚ → ℕ
  | [] => 0
  | a :: l =>
    match npMin l with
    | none => 0
    | some m => if a ≤ m then 0 else npArgmin l + 1

/-- Model of `np.searchsorted(V, x)` (side = left): the binary search numpy
performs, returning the leftmost insertion point when `V` is ascending.  The
first argument is fuel (the interval shrinks by at least one per step, so
fuel `hi - lo` ≥ the number of steps; `searchsorted` passes `V.length`). -/
def searchsortedAux (V : List ℚ) (x : ℚ) : ℕ → ℕ → ℕ → ℕ
  | 0, lo, _ => lo
  | fuel + 1, lo, hi =>
    if lo < hi then
      if V.getD ((lo + hi) / 2) 0 < x then
        searchsortedAux V x fuel ((lo + hi) / 2 + 1) hi
      else searchsortedAux V x fuel lo ((lo + hi) / 2)
    else lo

/-- Model of `np.searchsorted(V, x)` with the default side = left. -/
def searchsorted (V : List ℚ) (x : ℚ) : ℕ :=
  searchsortedAux V x V.length 0 V.length

/-- Model of `np.sqrt` on a nonnegative rational, exact whenever numerator and
denominator are perfect squares (every concrete input below is); on other
inputs (where the float result is irrational) it returns 0, a case no theorem
in this file relies on. -/
def sqrtQ (q : ℚ) : ℚ :=
  if (Nat.sqrt q.num.natAbs) * (Nat.sqrt q.num.natAbs) = q.num.natAbs ∧
      (Nat.sqrt q.den) * (Nat.sqrt q.den) = q.den then
    ((Nat.sqrt q.num.natAbs : ℤ) : ℚ) / ((Nat.sqrt q.den : ℤ) : ℚ)
  else 0

/-- Mutable OECT fields set in `__init__`/`set_params` and updated by
`_reverse(transfer=True)`: `options['Reverse']`, `self.reverse`,
`self.rev_point` (the source initialises `rev_point` to `np.nan`; it is
overwritten before any modelled use, so the initial value here is junk 0). -/
structure OECTState where
  optionsReverse : Bool
  reverse : Bool
  revPoint : ℕ
deriving DecidableEq, Repr

/-- One loaded sweep: voltage array (the DataFrame index) and current array. -/
structure Curve where
  v : List ℚ
  i : List ℚ
deriving DecidableEq, Repr

/-- Comparison windows of `OECT._reverse`: with midpoint = len(v)//2 + 1, the
pair `(x, y)` where for odd length `x = v[:len(v)//2]`, for even length
`x = v[1:len(v)//2]`, and `y = np.flip(v[midpoint:])`. -/
def reverseWindows (v : List ℚ) : List ℚ × List ℚ :=
  (if v.length % 2 = 1 then v.take (v.length / 2)
    else (v.drop 1).take (v.length / 2 - 1),
   (v.drop (v.length / 2 + 1)).reverse)

/-- Translation of `OECT._reverse` (oect.py lines 334-386), the value part:
if `np.allclose(x, y)` on the comparison windows, return
`(midpoint - 1, True)`, else `(len(v) - 1, False)`. -/
def reverseSplit (v : List ℚ) : ℕ × Bool :=
  if allclose (reverseWindows v).1 (reverseWindows v).2
  then (v.length / 2 + 1 - 1, true)
  else (v.length - 1, false)

/-- Translation of the `transfer=True` call of `OECT._reverse`: besides
returning `(mx, reverse)` it overwrites `self.rev_point`, `self.reverse` and
`self.options['Reverse']` with the detection result (the source also stores
`self.rev_v = v[mx]`, which no claim touches). -/
def reverseSplitTransfer (_st : OECTState) (v : List ℚ) : OECTState × ℕ × Bool :=
  (⟨(reverseSplit v).2, (reverseSplit v).2, (reverseSplit v).1⟩, reverseSplit v)

/-- Default width parameter of `_find_peak` (oect.py line 746: `width=15`). -/
def defaultFindPeakWidth : ℕ := 15

/-- Width passed by `_min_fit` on its retry call (oect.py line 717:
`self._find_peak(Id * 1000, V, width=15)`). -/
def minFitRetryWidth : ℕ := 15

/-- Candidate-search step of `_min_fit` (oect.py lines 713-717): call
`_find_peak` (abstracted as a function `fp` of the width, the curve data being
fixed) with the default width, and if the result is falsy (empty) call it once
more with `width=15`.  The second component counts the `_find_peak`
invocations, so that the retry-exactly-once behaviour is expressible. -/
def minFitPeaks (fp : ℕ → List ℕ) : List ℕ × ℕ :=
  if fp defaultFindPeakWidth = [] then (fp minFitRetryWidth, 2)
  else (fp defaultFindPeakWidth, 1)

/-- Edge filter of `_find_peak` (oect.py line 775): `peaks = peaks[peaks > 5]`
applied to the index array returned by `scipy.signal.find_peaks_cwt` on the
resampled second derivative. -/
def retainedPeaks (cwtPeaks : List ℕ) : List ℕ :=
  cwtPeaks.filter (fun p => decide (5 < p))

/-- Index-mapping step of `_find_peak` (oect.py line 778): each retained
resampled-grid peak `p` is mapped to `np.searchsorted(V, V_spl[p])` in the
original voltage array.  The spline/CWT numerical stage producing `cwtPeaks`
(and the resampled grid `Vspl`) is floating-point scipy code and is taken as
an input. -/
def findPeakPost (V Vspl : List ℚ) (cwtPeaks : List ℕ) : List ℕ :=
  (retainedPeaks cwtPeaks).map (fun p => searchsorted V (Vspl.getD p 0))

/-- Peak bookkeeping of `_calc_gm` (oect.py lines 475-476 and 485-486): the
reported peak value is `np.max(gm.values)` and its reported location is
`gm.index[np.argmax(gm.values)]`, where the index of the gm DataFrame is the
voltage array `vs`.  `none` models the ValueError numpy raises on an empty
array. -/
def calcGmPeak (gm vs : List ℚ) : Option (ℚ × ℚ) :=
  match npMax gm with
  | none => none
  | some m => some (vs.getD (npArgmax gm) 0, m)

/-- Device polarity quadrant. -/
inductive Quad where
  | I : Quad
  | III : Quad
deriving DecidableEq, Repr

/-- Translation of `OECT.quadrant` (oect.py lines 625-635): if any gm-peak
voltage (`self.gm_peaks.index`) is negative set `quad = III`, elif any is
positive set `quad = I`; otherwise `self.quad` is left unassigned (modelled as
`none`; a fresh device then raises AttributeError when `_min_fit` reads it). -/
def quadrantOf (pks : List ℚ) : Option Quad :=
  if pks.any (fun x => decide (x < 0)) then some Quad.III
  else if pks.any (fun x => decide (0 < x)) then some Quad.I
  else none

/-- Translation of `OECT.line_f` (oect.py lines 740-743): `f1 + f0 * x`. -/
def lineF (x f0 f1 : ℚ) : ℚ := f1 + f0 * x

/-- Mean abscissa of the fitted points. -/
def fitXbar (pts : List (ℚ × ℚ)) : ℚ := (pts.map Prod.fst).sum / pts.length

/-- Mean ordinate of the fitted points. -/
def fitYbar (pts : List (ℚ × ℚ)) : ℚ := (pts.map Prod.snd).sum / pts.length

/-- Centred second moment of the abscissae. -/
def fitSxx (pts : List (ℚ × ℚ)) : ℚ :=
  (pts.map (fun p => (p.1 - fitXbar pts) ^ 2)).sum

/-- Centred cross moment. -/
def fitSxy (pts : List (ℚ × ℚ)) : ℚ :=
  (pts.map (fun p => (p.1 - fitXbar pts) * (p.2 - fitYbar pts))).sum

/-- Exact semantics of the call
`cf(self.line_f, V[:m], Id[:m], bounds=([-np.inf, -np.inf], [0, np.inf]))`
(oect.py lines 723-724): `scipy.optimize.curve_fit` with these bounds
computes the least-squares line fit under the box constraint given by lower
bounds `(-inf, -inf)` and upper bounds `(0, inf)` — the slope `f0` is bounded
above by 0 and the intercept `f1` is unconstrained.  For the line model this
convex problem has a closed form, used here: the ordinary-least-squares fit
when its slope is nonpositive, otherwise the slope clamped to 0 with the mean
ordinate as intercept.  `none` models the errors scipy raises on degenerate
data (fewer points than the two parameters, or an all-equal abscissa). -/
def constrainedFit (V Id : List ℚ) : Option (ℚ × ℚ) :=
  if (V.zip Id).length < 2 then none
  else if fitSxx (V.zip Id) = 0 then none
  else if fitSxy (V.zip Id) / fitSxx (V.zip Id) ≤ 0 then
    some (fitSxy (V.zip Id) / fitSxx (V.zip Id),
      fitYbar (V.zip Id) - fitSxy (V.zip Id) / fitSxx (V.zip Id) * fitXbar (V.zip Id))
  else some (0, fitYbar (V.zip Id))

/-- Residual computation of `_min_fit` (oect.py lines 726-727): with
`v_x = np.searchsorted(V, -fit[1] / fit[0])`, the value
`np.sum((Id[:v_x] - line_f(V[:v_x], f0, f1)) ** 2)`. -/
def minFitResidual (Id V : List ℚ) (f0 f1 : ℚ) : ℚ :=
  (((Id.take (searchsorted V (-f1 / f0))).zip
      (V.take (searchsorted V (-f1 / f0)))).map
    (fun p => (p.1 - lineF p.2 f0 f1) ^ 2)).sum

/-- Loop of `_min_fit` over the found candidates (oect.py lines 720-729): for
each candidate index `m`, fit the constrained line to `V[:m]`, `Id[:m]` and
record the fit together with its residual; a scipy failure on any candidate
propagates out of the loop (`none`). -/
def fitCandidates (Id V : List ℚ) : List ℕ → Option (List ((ℚ × ℚ) × ℚ))
  | [] => some []
  | m :: ms =>
    match constrainedFit (V.take m) (Id.take m), fitCandidates Id V ms with
    | some fit, some rest =>
      some ((fit, minFitResidual Id V fit.1 fit.2) :: rest)
    | _, _ => none

/-- Quadrant-I reflection of the current array (oect.py line 710:
`Id = np.flip(Id)`). -/
def quadAdjId (q : Quad) (Id : List ℚ) : List ℚ :=
  if q = Quad.I then Id.reverse else Id

/-- Quadrant-I reflection of the voltage array (oect.py line 711:
`V = np.flip(-V)`). -/
def quadAdjV (q : Quad) (V : List ℚ) : List ℚ :=
  if q = Quad.I then (V.map (fun t => -t)).reverse else V

/-- Selection step of `_min_fit` (oect.py lines 731-737): drop the seed row,
pick the fit at `np.argmin(_residuals)` (ValueError — `none` — when no
candidate was found), and in quadrant I multiply the slope by -1. -/
def minFitSelect (q : Quad) : Option (List ((ℚ × ℚ) × ℚ)) → Option (ℚ × ℚ)
  | none => none
  | some [] => none
  | some (f :: fs) =>
    some (if q = Quad.I then
        (-(((f :: fs).getD (npArgmin ((f :: fs).map Prod.snd)) ((0, 0), 0)).1.1),
          ((f :: fs).getD (npArgmin ((f :: fs).map Prod.snd)) ((0, 0), 0)).1.2)
      else ((f :: fs).getD (npArgmin ((f :: fs).map Prod.snd)) ((0, 0), 0)).1)

/-- Core of `_min_fit` after the ascending-order fix-up (oect.py lines
706-737): apply the quadrant-I reflection, search candidates on `Id * 1000`
(with the retry behaviour of `minFitPeaks`), fit every candidate and select
by minimum residual.  `fp` abstracts the `_find_peak` numerical stage:
(data, voltages, width) ↦ candidate index list. -/
def minFitCore (fp : List ℚ → List ℚ → ℕ → List ℕ) (q : Quad) (Id V : List ℚ) :
    Option (ℚ × ℚ) :=
  minFitSelect q (fitCandidates (quadAdjId q Id) (quadAdjV q V)
    (minFitPeaks (fun w =>
      fp ((quadAdjId q Id).map (fun t => t * 1000)) (quadAdjV q V) w)).1)

/-- Translation of `OECT._min_fit` (oect.py lines 696-737): flip both arrays
when `V[2] < V[1]` (IndexError — `none` — when `V` has fewer than 3 samples),
determine the polarity quadrant from the gm-peak voltages `pks`
(AttributeError — `none` — on a fresh device when it stays undetermined),
then fit and select. -/
def minFit (fp : List ℚ → List ℚ → ℕ → List ℕ) (pks Id V : List ℚ) :
    Option (ℚ × ℚ) :=
  if V.length < 3 then none
  else
    match quadrantOf pks with
    | none => none
    | some q =>
      if V.getD 2 0 < V.getD 1 0 then minFitCore fp q Id.reverse V.reverse
      else minFitCore fp q Id V

/-- Per-curve body of the `thresh` loop (oect.py lines 660-680):
`Id_lo = np.sqrt(np.abs(column))`, then
`fit = self._min_fit(Id_lo - np.min(Id_lo), v_lo)` (`none` when the column is
empty — np.min raises — or when `_min_fit` raises), and from the winning fit
the pair of the threshold `-fit[1]/fit[0]` (the x-intercept) and the gate
overdrive `|pk + fit[1]/fit[0]|`. -/
def threshOne (fp : List ℚ → List ℚ → ℕ → List ℕ) (pks vlo col : List ℚ)
    (pk : ℚ) : Option (ℚ × ℚ) :=
  match npMin (col.map (fun x => sqrtQ |x|)) with
  | none => none
  | some mn =>
    match minFit fp pks
        ((col.map (fun x => sqrtQ |x|)).map (fun x => x - mn)) vlo with
    | none => none
    | some fit => some (-fit.2 / fit.1, |pk + fit.2 / fit.1|)

/-- Pairing of the `thresh` loop (oect.py line 660):
`for tf, pk in zip(self.transfers, self.gm_peaks.index)` — the transfer
columns are zipped with the stored gm-peak voltages, truncating to the
shorter of the two. -/
def threshPairs (cols : List (List ℚ)) (pks : List ℚ) : List (List ℚ × ℚ) :=
  cols.zip pks

/-- Exception semantics of the `thresh` loop: the loop body has no exception
handling, so a failure (`none`) on any curve aborts the whole traversal and
no result list is produced. -/
def threshAux (fp : List ℚ → List ℚ → ℕ → List ℕ) (pks vlo : List ℚ) :
    List (List ℚ × ℚ) → Option (List (ℚ × ℚ))
  | [] => some []
  | (col, pk) :: rest =>
    match threshOne fp pks vlo col pk, threshAux fp pks vlo rest with
    | some r, some rs => some (r :: rs)
    | _, _ => none

/-- Translation of `OECT.thresh` (oect.py lines 637-693, plotting elided):
run the per-curve threshold fit over the zipped (column, gm-peak voltage)
pairs, with the shared voltage index `v_lo = self.transfers.index.values`,
collecting the `(Vt, VgVt)` pairs. -/
def threshRun (fp : List ℚ → List ℚ → ℕ → List ℕ) (pks vlo : List ℚ)
    (cols : List (List ℚ)) : Option (List (ℚ × ℚ)) :=
  threshAux fp pks vlo (threshPairs cols pks)

/-- Peak-finder behaviour used in the concrete threshold scenarios: no CWT
peaks when the scaled sqrt-current input is identically zero (the all-zero
current curve of the claim), a single candidate at index 4 otherwise. -/
def fpEx : List ℚ → List ℚ → ℕ → List ℕ :=
  fun Id _ _ => if Id.all (fun t => decide (t = 0)) then [] else [4]

/-- Shared transfer-voltage index of the concrete threshold scenarios. -/
def vloEx : List ℚ := [-4, -3, -2, -1]

/-- Transfer column with identically zero current. -/
def colZero : List ℚ := [0, 0, 0, 0]

/-- Transfer column whose sqrt-current is exactly the line `-x - 1`. -/
def colGood : List ℚ := [9, 4, 1, 0]

/-- Modelled from the spec: the module `deriv` (imported as
`from deriv import gm_deriv` at oect.py line 23) is not among the sources;
per §4.2 of the specification the `raw` strategy is the direct
finite-difference derivative of current with respect to voltage, one gm value
per input voltage sample (np.gradient style: one-sided differences at the
two ends, central differences in the interior). -/
def gmDerivRaw (v i : List ℚ) : List ℚ :=
  (List.range v.length).map (fun k =>
    if v.length ≤ 1 then 0
    else if k = 0 then (i.getD 1 0 - i.getD 0 0) / (v.getD 1 0 - v.getD 0 0)
    else if k = v.length - 1 then
      (i.getD k 0 - i.getD (k - 1) 0) / (v.getD k 0 - v.getD (k - 1) 0)
    else (i.getD (k + 1) 0 - i.getD (k - 1) 0) /
      (v.getD (k + 1) 0 - v.getD (k - 1) 0))

/-- Translation of `_calc_gm`, curve part (oect.py lines 448-491): read
`mx = self.rev_point` and `reverse = self.reverse`; the forward gm is the
derivative over `v[:mx]`, `i[0:mx]`; if `reverse`, the backward gm is the
derivative over `np.flip(v[mx:])`, `np.flip(i[mx:])`, else the backward curve
is the empty DataFrame.  The numeric differentiation `gm_deriv` is the
parameter `g`. -/
def calcGm (g : List ℚ → List ℚ → List ℚ) (st : OECTState) (c : Curve) :
    List ℚ × List ℚ :=
  (g (c.v.take st.revPoint) (c.i.take st.revPoint),
   if st.reverse then
     g ((c.v.drop st.revPoint).reverse) ((c.i.drop st.revPoint).reverse)
   else [])

/-- Translation of `_calc_gm`, peak part (oect.py lines 456-493): the
`gm_peaks` DataFrame rows `(voltage, peak value)` — data `np.max(gm)` with
index `gm.index[np.argmax(gm)]` — one row for the forward curve plus, when a
reverse trace is processed, one row for the backward curve; `none` models the
numpy errors on an empty gm array. -/
def calcGmPeaksOf (g : List ℚ → List ℚ → List ℚ) (st : OECTState) (c : Curve) :
    Option (List (ℚ × ℚ)) :=
  match calcGmPeak (calcGm g st c).1 (c.v.take st.revPoint) with
  | none => none
  | some pf =>
    if st.reverse then
      match calcGmPeak (calcGm g st c).2 ((c.v.drop st.revPoint).reverse) with
      | none => none
      | some pb => some [pf, pb]
    else some [pf]

/-- Split-then-differentiate pipeline for one transfer curve:
`all_transfers` calls `_reverse(transfer=True)` — setting `rev_point` and
`reverse` and overwriting `options['Reverse']` — and `calc_gms` then calls
`_calc_gm`, which reads only the detection flags.  The initial state carries
the user-supplied `Reverse` option (default True in `set_params`). -/
def splitThenGm (g : List ℚ → List ℚ → List ℚ) (optReverse : Bool) (c : Curve) :
    List ℚ × List ℚ :=
  calcGm g (reverseSplitTransfer ⟨optReverse, false, 0⟩ c.v).1 c

/-- Stable insertion of a (voltage, value) sample into a voltage-sorted
series. -/
def insertByVoltage (p : ℚ × ℚ) : List (ℚ × ℚ) → List (ℚ × ℚ)
  | [] => [p]
  | q :: t => if q.1 < p.1 then q :: insertByVoltage p t else p :: q :: t

/-- Sorted series construction of `all_transfers` (oect.py lines 590-598):
`pd.Series(data, index).sort_index()` — the (voltage, value) pairs sorted
stably by voltage (a stable insertion sort; pandas sort_index is stable). -/
def seriesSorted (idx data : List ℚ) : List (ℚ × ℚ) :=
  (idx.zip data).foldr insertByVoltage []

/-- Translation of `all_transfers` (oect.py lines 576-598; the Average and
V_low option handling, which no claim touches, elided): for each transfer
curve, call `_reverse(transfer=True)` (threading the device state) and append
the forward column over `idx[:mx]`, plus, when a reverse leg is detected, the
backward column over `idx[mx:]`.  Columns are sorted (voltage, value) series;
the source assumes all curves were taken on the same voltage range (comment
at oect.py line 580). -/
def allTransfers (st : OECTState) (curves : List Curve) :
    OECTState × List (List (ℚ × ℚ)) :=
  curves.foldl (fun acc c =>
    ((reverseSplitTransfer acc.1 c.v).1,
      if (reverseSplitTransfer acc.1 c.v).2.2 then
        acc.2 ++ [seriesSorted (c.v.take (reverseSplitTransfer acc.1 c.v).2.1)
            (c.i.take (reverseSplitTransfer acc.1 c.v).2.1),
          seriesSorted (c.v.drop (reverseSplitTransfer acc.1 c.v).2.1)
            (c.i.drop (reverseSplitTransfer acc.1 c.v).2.1)]
      else acc.2 ++ [seriesSorted (c.v.take (reverseSplitTransfer acc.1 c.v).2.1)
          (c.i.take (reverseSplitTransfer acc.1 c.v).2.1)]))
    (st, [])

/-- Translation of the `calc_gms` loop (oect.py lines 396-397):
`self.gm_fwd[i], self.gm_bwd[i], self.gm_peaks = self._calc_gm(...)` — the
`gm_peaks` attribute is reassigned on every iteration, so after the loop it
holds the last curve's peaks; a numpy failure in any iteration propagates;
with no transfer curves the attribute is never created (`none`: reading it at
oect.py line 436 then raises AttributeError). -/
def calcGmsPeaks (g : List ℚ → List ℚ → List ℚ) (st : OECTState) :
    List Curve → Option (List (ℚ × ℚ))
  | [] => none
  | [c] => calcGmPeaksOf g st c
  | c :: c2 :: cs =>
    match calcGmPeaksOf g st c with
    | none => none
    | some _ => calcGmsPeaks g st (c2 :: cs)

/-- First concrete transfer curve of the two-curve scenario. -/
def c1ex : Curve := ⟨[0, 10, 20], [0, 1, 4]⟩

/-- Second (last) concrete transfer curve of the two-curve scenario. -/
def c2ex : Curve := ⟨[0, 10, 20], [0, 2, 8]⟩

/-- Initial state of the two-curve scenario: default options
(`Reverse = True`), nothing detected yet. -/
def st0ex : OECTState := ⟨true, false, 0⟩

/-- Sum of squared residuals of the line `f1 + f0 * x` over zipped
(voltage, value) points — the objective that `scipy.optimize.curve_fit`
minimises subject to its bounds.  It is used to prove that `constrainedFit`
is the exact minimiser of the bounded problem. -/
def fitSSE (pts : List (ℚ × ℚ)) (f0 f1 : ℚ) : ℚ :=
  (pts.map (fun p => (p.2 - lineF p.1 f0 f1) ^ 2)).sum

/-! ## Theorems: supporting lemmas and the claim theorems -/

theorem zip_self_all_close (x : List ℚ) :
    (x.zip x).all (fun p => decide (|p.1 - p.2| ≤ npAtol + npRtol * |p.2|)) = true := by
  induction x with
  | nil => rfl
  | cons a t ih =>
    rw [List.zip_cons_cons, List.all_cons, Bool.and_eq_true]
    refine ⟨?_, ih⟩
    simp only [decide_eq_true_eq, sub_self, abs_zero]
    have h1 : (0 : ℚ) < npAtol := by norm_num [npAtol]
    have h2 : (0 : ℚ) ≤ npRtol * |a| := by
      have hr : (0 : ℚ) ≤ npRtol := by norm_num [npRtol]
      exact mul_nonneg hr (abs_nonneg a)
    linarith

theorem allclose_refl (x : List ℚ) : allclose x x = true := by
  unfold allclose
  rw [Bool.and_eq_true]
  exact ⟨by simp, zip_self_all_close x⟩

theorem allclose_cons_false (a b : ℚ) (xs ys : List ℚ)
    (h : ¬ |a - b| ≤ npAtol + npRtol * |b|) :
    allclose (a :: xs) (b :: ys) = false := by
  unfold allclose
  simp [h]

theorem reverseSplit_idx_of_true (v : List ℚ) (h : (reverseSplit v).2 = true) :
    (reverseSplit v).1 = v.length / 2 + 1 - 1 := by
  unfold reverseSplit at h ⊢
  by_cases hb : allclose (reverseWindows v).1 (reverseWindows v).2 = true
  · rw [if_pos hb]
  · rw [if_neg hb] at h
    simp at h

theorem ne_nil_of_length_ne_zero (l : List ℚ) (h : l.length ≠ 0) : l ≠ [] := by
  intro hc
  exact h (by rw [hc]; rfl)

theorem allclose_false_of_pair (x y : List ℚ) (hx : x ≠ []) (hy : y ≠ [])
    (h : ¬ |x.getD 0 0 - y.getD 0 0| ≤ npAtol + npRtol * |y.getD 0 0|) :
    allclose x y = false := by
  rcases x with _ | ⟨a, xs⟩
  · exact absurd rfl hx
  rcases y with _ | ⟨b, ys⟩
  · exact absurd rfl hy
  exact allclose_cons_false a b xs ys (by simpa using h)

theorem getD_zero_take (v : List ℚ) (m : ℕ) (hm : 0 < m) :
    (v.take m).getD 0 0 = v.getD 0 0 := by
  rcases v with _ | ⟨a, t⟩
  · simp
  · rcases m with _ | m
    · omega
    · rfl

theorem getD_zero_drop (v : List ℚ) (k : ℕ) :
    (v.drop k).getD 0 0 = v.getD k 0 := by
  induction v generalizing k with
  | nil => simp
  | cons a t ih =>
    rcases k with _ | k
    · rfl
    · exact ih k

theorem getD_zero_eq_head? (l : List ℚ) : l.getD 0 0 = l.head?.getD 0 := by
  rcases l with _ | ⟨a, t⟩ <;> rfl

theorem getLast?_drop_eq (v : List ℚ) (k : ℕ) (hk : k < v.length) :
    (v.drop k).getLast? = v.getLast? := by
  induction v generalizing k with
  | nil => simp at hk
  | cons a t ih =>
    rcases k with _ | k
    · rfl
    · have hk2 : k < t.length := by simpa using hk
      rw [List.drop_succ_cons, ih k hk2]
      rcases t with _ | ⟨b, t2⟩
      · simp at hk2
      · rfl

theorem getLast?_getD_eq (v : List ℚ) :
    v.getLast?.getD 0 = v.getD (v.length - 1) 0 := by
  rw [List.getLast?_eq_getElem?, List.getD_eq_getElem?_getD]

theorem getD_zero_of_reverse_drop (v : List ℚ) (k : ℕ) (hk : k < v.length) :
    ((v.drop k).reverse).getD 0 0 = v.getD (v.length - 1) 0 := by
  rw [getD_zero_eq_head?, List.head?_reverse, getLast?_drop_eq v k hk,
    getLast?_getD_eq]

/-- C1 (counterexample): the claim fails on the code in two ways.  For the odd
symmetric sweep `[0, 1, 2, 1, 0]` (second half the reverse of the first) the
splitter returns split index `2 = floor(5/2)` rather than the claimed
forward-leg length `floor(5/2) + 1 = 3`; and for the even mirror sweep
`[0, 1, 1, 0]` it reports `hasReverse = false`: the even comparison windows
`v[1:n//2]` and `flip(v[n//2+1:])` misalign, so even-length detection fails. -/
theorem reverseSplit_symmetric_counterexample :
    reverseSplit [(0 : ℚ), 1, 2, 1, 0] = (2, true) ∧ (2 : ℕ) ≠ 5 / 2 + 1 ∧
      reverseSplit [(0 : ℚ), 1, 1, 0] = (3, false) := by
  refine ⟨by with_unfolding_all decide, by decide, by with_unfolding_all decide⟩

/-- C1 (amended): for every odd-length symmetric sweep (the sequence is a
palindrome: second half the reverse of the first, sharing the apex sample),
`_reverse` detects the reverse leg and returns split index `floor(n/2)`, one
less than the forward-leg length `floor(n/2) + 1`.  Even-length mirror sweeps
are not detected (see the counterexample). -/
theorem reverseSplit_odd_palindrome (v : List ℚ)
    (hodd : v.length % 2 = 1) (hpal : v.reverse = v) :
    reverseSplit v = (v.length / 2, true) := by
  have hx : (reverseWindows v).1 = v.take (v.length / 2) := by
    unfold reverseWindows
    simp only [if_pos hodd]
  have hy : (reverseWindows v).2 = v.take (v.length / 2) := by
    show (v.drop (v.length / 2 + 1)).reverse = _
    rw [List.reverse_drop, hpal]
    congr 1
    omega
  unfold reverseSplit
  rw [hx, hy, if_pos (allclose_refl _)]
  have h2 : v.length / 2 + 1 - 1 = v.length / 2 := by omega
  rw [h2]

/-- C1 (witness): the odd palindrome `[0, 1, 2, 1, 0]` is detected with split
index 2. -/
theorem reverseSplit_odd_palindrome_witness :
    reverseSplit [(0 : ℚ), 1, 2, 1, 0] = (2, true) :=
  reverseSplit_odd_palindrome [(0 : ℚ), 1, 2, 1, 0] (by rfl) (by rfl)

/-- C4 (counterexample): the claim fails on the code in both parts.  The
length-2 sequence `[0, 1]` is reported as having a reverse leg (the comparison
windows are empty, and `np.allclose([], [])` is True), and the strictly
monotonic length-3 sequence `[0, 1e-9, 2e-9]` is also reported as having a
reverse leg because its endpoints differ by less than the allclose
tolerance. -/
theorem reverseSplit_short_counterexample :
    (reverseSplit [(0 : ℚ), 1]).2 = true ∧
      (reverseSplit [(0 : ℚ), 1 / 1000000000, 2 / 1000000000]).2 = true := by
  refine ⟨by rfl, by with_unfolding_all decide⟩

/-- C4 (amended): sequences of length < 3 are reported as having a reverse
leg (`hasReverse = true`, since the comparison windows are empty and
`np.allclose` holds vacuously); a strictly monotonic sequence of length ≥ 3 is
reported as `hasReverse = false` provided its compared boundary samples
(`v[0]` for odd length, `v[1]` for even length, against `v[n-1]`) differ by
more than the `np.allclose` tolerance. -/
theorem reverseSplit_short_and_monotonic :
    (∀ v : List ℚ, v.length < 3 → (reverseSplit v).2 = true) ∧
      (∀ v : List ℚ, 3 ≤ v.length →
        (List.Chain' (· < ·) v ∨ List.Chain' (· > ·) v) →
        npAtol + npRtol * |v.getD (v.length - 1) 0| <
          |v.getD (if v.length % 2 = 1 then 0 else 1) 0 - v.getD (v.length - 1) 0| →
        (reverseSplit v).2 = false) := by
  constructor
  · intro v hv
    rcases v with _ | ⟨a, _ | ⟨b, _ | ⟨c, t⟩⟩⟩
    · rfl
    · simp [reverseSplit, reverseWindows, allclose]
    · simp [reverseSplit, reverseWindows, allclose]
    · exfalso
      simp only [List.length_cons] at hv
      omega
  · intro v hlen _hmono hgap
    have hyv : ((reverseWindows v).2).getD 0 0 = v.getD (v.length - 1) 0 := by
      show ((v.drop (v.length / 2 + 1)).reverse).getD 0 0 = _
      exact getD_zero_of_reverse_drop v (v.length / 2 + 1) (by omega)
    have hylen : (reverseWindows v).2 ≠ [] := by
      apply ne_nil_of_length_ne_zero
      show ((v.drop (v.length / 2 + 1)).reverse).length ≠ 0
      rw [List.length_reverse, List.length_drop]
      omega
    have hfalse : allclose (reverseWindows v).1 (reverseWindows v).2 = false := by
      by_cases hodd : v.length % 2 = 1
      · have hxv : ((reverseWindows v).1).getD 0 0 = v.getD 0 0 := by
          unfold reverseWindows
          simp only [if_pos hodd]
          exact getD_zero_take v (v.length / 2) (by omega)
        have hxlen : (reverseWindows v).1 ≠ [] := by
          apply ne_nil_of_length_ne_zero
          have he : (reverseWindows v).1 = v.take (v.length / 2) := by
            unfold reverseWindows
            simp only [if_pos hodd]
          rw [he, List.length_take]
          omega
        apply allclose_false_of_pair _ _ hxlen hylen
        rw [hxv, hyv]
        rw [if_pos hodd] at hgap
        intro hc
        linarith
      · have hxv : ((reverseWindows v).1).getD 0 0 = v.getD 1 0 := by
          unfold reverseWindows
          simp only [if_neg hodd]
          rw [getD_zero_take (v.drop 1) (v.length / 2 - 1) (by omega),
            getD_zero_drop]
        have hxlen : (reverseWindows v).1 ≠ [] := by
          apply ne_nil_of_length_ne_zero
          have he : (reverseWindows v).1 = (v.drop 1).take (v.length / 2 - 1) := by
            unfold reverseWindows
            simp only [if_neg hodd]
          rw [he, List.length_take, List.length_drop]
          omega
        apply allclose_false_of_pair _ _ hxlen hylen
        rw [hxv, hyv]
        rw [if_neg hodd] at hgap
        intro hc
        linarith
    unfold reverseSplit
    rw [if_neg (by simp [hfalse])]

/-- C4 (witness): the length-2 sequence `[0, 1]` is reported with a reverse
leg, and the strictly monotonic `[0, 10, 20]` (whose boundary samples differ
by far more than the tolerance) is reported without one. -/
theorem reverseSplit_short_and_monotonic_witness :
    (reverseSplit [(0 : ℚ), 1]).2 = true ∧
      (reverseSplit [(0 : ℚ), 10, 20]).2 = false :=
  ⟨reverseSplit_short_and_monotonic.1 [(0 : ℚ), 1] (by decide),
   reverseSplit_short_and_monotonic.2 [(0 : ℚ), 10, 20] (by decide)
     (Or.inl (by norm_num))
     (by with_unfolding_all decide)⟩

theorem npMax_eq_none (l : List ℚ) (h : npMax l = none) : l = [] := by
  rcases l with _ | ⟨a, t⟩
  · rfl
  · rcases ht : npMax t with _ | mt
    · rw [npMax, ht] at h
      simp at h
    · rw [npMax, ht] at h
      simp at h

theorem npMax_spec (l : List ℚ) (m : ℚ) (h : npMax l = some m) :
    m ∈ l ∧ ∀ x ∈ l, x ≤ m := by
  induction l generalizing m with
  | nil => simp [npMax] at h
  | cons a t ih =>
    rw [npMax] at h
    rcases ht : npMax t with _ | mt
    · rw [ht] at h
      injection h with h
      have htnil := npMax_eq_none t ht
      subst htnil
      subst h
      exact ⟨List.mem_cons_self a [], by
        intro x hx
        rcases List.mem_cons.1 hx with h1 | h1
        · exact le_of_eq h1
        · simp at h1⟩
    · rw [ht] at h
      injection h with h
      obtain ⟨hmem, hle⟩ := ih mt ht
      subst h
      constructor
      · rcases max_choice a mt with h1 | h1 <;> rw [h1]
        · exact List.mem_cons_self a t
        · exact List.mem_cons_of_mem a hmem
      · intro x hx
        rcases List.mem_cons.1 hx with h1 | h1
        · rw [h1]
          exact le_max_left _ _
        · exact le_trans (hle x h1) (le_max_right _ _)

theorem npArgmax_spec (l : List ℚ) (m : ℚ) (h : npMax l = some m) :
    npArgmax l < l.length ∧ l.getD (npArgmax l) 0 = m ∧
      ∀ k < npArgmax l, l.getD k 0 ≠ m := by
  induction l generalizing m with
  | nil => simp [npMax] at h
  | cons a t ih =>
    rw [npMax] at h
    rcases ht : npMax t with _ | mt
    · rw [ht] at h
      injection h with h
      subst h
      have ha : npArgmax (a :: t) = 0 := by
        simp only [npArgmax, ht]
      refine ⟨by rw [ha]; simp, by rw [ha]; rfl, ?_⟩
      intro k hk
      rw [ha] at hk
      omega
    · rw [ht] at h
      injection h with h
      subst h
      obtain ⟨ih1, ih2, ih3⟩ := ih mt ht
      by_cases hc : mt ≤ a
      · have ha : npArgmax (a :: t) = 0 := by
          simp only [npArgmax, ht, if_pos hc]
        refine ⟨by rw [ha]; simp, ?_, ?_⟩
        · rw [ha]
          show a = max a mt
          rw [max_eq_left hc]
        · intro k hk
          rw [ha] at hk
          omega
      · push_neg at hc
        have ha : npArgmax (a :: t) = npArgmax t + 1 := by
          simp only [npArgmax, ht, if_neg (not_le.2 hc)]
        refine ⟨?_, ?_, ?_⟩
        · rw [ha]
          simpa using Nat.succ_lt_succ ih1
        · rw [ha]
          show t.getD (npArgmax t) 0 = max a mt
          rw [ih2, max_eq_right (le_of_lt hc)]
        · intro k hk
          rw [ha] at hk
          rcases k with _ | k
          · show ¬ a = max a mt
            rw [max_eq_right (le_of_lt hc)]
            exact ne_of_lt hc
          · show t.getD k 0 ≠ max a mt
            rw [max_eq_right (le_of_lt hc)]
            exact ih3 k (by omega)

/-- C5 (counterexample): the width used by the retry call of `_min_fit`
equals the default width of `_find_peak` (both are 15), so the retry is not
strictly wider than the default. -/
theorem retry_width_counterexample :
    minFitRetryWidth = defaultFindPeakWidth ∧
      ¬ defaultFindPeakWidth < minFitRetryWidth :=
  ⟨rfl, by decide⟩

/-- C5 (amended): when the first peak search returns no peaks, `_min_fit`
performs exactly one retry (two `_find_peak` calls in total), but with width
15 equal to the default width — the retry recomputes the same search — and
then gives up with the empty candidate list. -/
theorem minFitPeaks_retry_once (fp : ℕ → List ℕ)
    (h : fp defaultFindPeakWidth = []) :
    minFitPeaks fp = ([], 2) ∧ minFitRetryWidth = defaultFindPeakWidth := by
  refine ⟨?_, rfl⟩
  unfold minFitPeaks
  rw [if_pos h, show minFitRetryWidth = defaultFindPeakWidth from rfl, h]

/-- C5 (witness): a peak search that always comes back empty is run twice and
the empty list is returned. -/
theorem minFitPeaks_retry_once_witness :
    minFitPeaks (fun _ => []) = ([], 2) ∧
      minFitRetryWidth = defaultFindPeakWidth :=
  minFitPeaks_retry_once (fun _ => []) rfl

/-- C6 (counterexample): a CWT peak at index 19 of a resampled
second-derivative array of length 20 lies within 5 samples of the end
boundary (distance 0), yet it is retained: the filter `peaks[peaks > 5]`
tests the start boundary only. -/
theorem retainedPeaks_end_counterexample :
    retainedPeaks [19] = [19] ∧ ¬ 5 < 20 - 1 - 19 :=
  ⟨rfl, by decide⟩

/-- C6 (amended): the edge filter retains exactly the detected peaks whose
index is greater than 5 — i.e. at distance greater than 5 from the start of
the resampled array; membership is independent of the array length, so peaks
within 5 samples of the end are not discarded. -/
theorem retainedPeaks_start_only (cwtPeaks : List ℕ) (p : ℕ) :
    p ∈ retainedPeaks cwtPeaks ↔ p ∈ cwtPeaks ∧ 5 < p := by
  unfold retainedPeaks
  rw [List.mem_filter]
  simp

/-- C7 (counterexample): for the gm curve `[-5, 2]` over voltages `[10, 20]`
the code reports the peak value 2 at voltage 20, although `-5` has the
strictly larger magnitude: the peak is selected by `np.max` (signed value),
not by largest absolute value. -/
theorem calcGmPeak_magnitude_counterexample :
    calcGmPeak [(-5 : ℚ), 2] [10, 20] = some (20, 2) ∧
      |(2 : ℚ)| < |(-5 : ℚ)| := by
  refine ⟨by with_unfolding_all decide, by with_unfolding_all decide⟩

/-- C7 (amended): for every nonempty gm curve the computation reports the
maximum signed gm value (an element of the curve dominating all others in the
signed order, not in magnitude), together with the voltage at the first index
attaining that maximum. -/
theorem calcGmPeak_max_value (gm vs : List ℚ) (h : gm ≠ []) :
    ∃ m, calcGmPeak gm vs = some (vs.getD (npArgmax gm) 0, m) ∧ m ∈ gm ∧
      (∀ x ∈ gm, x ≤ m) ∧ npArgmax gm < gm.length ∧
      gm.getD (npArgmax gm) 0 = m ∧ ∀ k < npArgmax gm, gm.getD k 0 ≠ m := by
  rcases hm : npMax gm with _ | m
  · exact absurd (npMax_eq_none gm hm) h
  · obtain ⟨h1, h2⟩ := npMax_spec gm m hm
    obtain ⟨h3, h4, h5⟩ := npArgmax_spec gm m hm
    refine ⟨m, ?_, h1, h2, h3, h4, h5⟩
    rw [calcGmPeak, hm]

/-- C7 (witness): on the gm curve `[1, 3, 2]` over voltages `[5, 6, 7]` the
reported peak is the signed maximum 3, first attained at index 1. -/
theorem calcGmPeak_max_value_witness :
    ∃ m, calcGmPeak [(1 : ℚ), 3, 2] [5, 6, 7] =
        some (([(5 : ℚ), 6, 7]).getD (npArgmax [(1 : ℚ), 3, 2]) 0, m) ∧
      m ∈ [(1 : ℚ), 3, 2] ∧ (∀ x ∈ [(1 : ℚ), 3, 2], x ≤ m) ∧
      npArgmax [(1 : ℚ), 3, 2] < ([(1 : ℚ), 3, 2] : List ℚ).length ∧
      ([(1 : ℚ), 3, 2] : List ℚ).getD (npArgmax [(1 : ℚ), 3, 2]) 0 = m ∧
      ∀ k < npArgmax [(1 : ℚ), 3, 2], ([(1 : ℚ), 3, 2] : List ℚ).getD k 0 ≠ m :=
  calcGmPeak_max_value [(1 : ℚ), 3, 2] [5, 6, 7] (by simp)

/-- C9 (confirmed): the quadrant becomes III whenever some peak voltage is
negative; it becomes I only when no peak voltage is negative and some peak
voltage is positive; and when both negative and positive peak voltages exist
the negative branch wins (it is evaluated first) and the quadrant is III. -/
theorem quadrantOf_selection (pks : List ℚ) :
    ((∃ x ∈ pks, x < 0) → quadrantOf pks = some Quad.III) ∧
      (quadrantOf pks = some Quad.I →
        (∀ x ∈ pks, ¬ x < 0) ∧ (∃ x ∈ pks, 0 < x)) ∧
      ((∃ x ∈ pks, x < 0) → (∃ x ∈ pks, 0 < x) →
        quadrantOf pks = some Quad.III) := by
  unfold quadrantOf
  by_cases hneg : pks.any (fun x => decide (x < 0)) = true
  · rw [if_pos hneg]
    refine ⟨fun _ => rfl, ?_, fun _ _ => rfl⟩
    intro hc
    exact absurd hc (by simp)
  · rw [if_neg hneg]
    have hno : ∀ x ∈ pks, ¬ x < 0 := by
      simp only [List.any_eq_true, decide_eq_true_eq] at hneg
      push_neg at hneg
      intro x hx
      exact not_lt.2 (hneg x hx)
    refine ⟨?_, ?_, ?_⟩
    · rintro ⟨x, hx, hlt⟩
      exact absurd hlt (hno x hx)
    · intro hI
      by_cases hpos : pks.any (fun x => decide (0 < x)) = true
      · refine ⟨hno, ?_⟩
        simpa using hpos
      · rw [if_neg hpos] at hI
        exact absurd hI (by simp)
    · rintro ⟨x, hx, hlt⟩ _
      exact absurd hlt (hno x hx)

/-- C9 (witness): with peak voltages `[-1, 2]` (both a negative and a
positive one present) the quadrant is III. -/
theorem quadrantOf_selection_witness :
    quadrantOf [(-1 : ℚ), 2] = some Quad.III :=
  (quadrantOf_selection [(-1 : ℚ), 2]).2.2
    ⟨-1, by simp, by norm_num⟩ ⟨2, by simp, by norm_num⟩

theorem constrainedFit_slope_nonpos (V Id : List ℚ) (f0 f1 : ℚ)
    (h : constrainedFit V Id = some (f0, f1)) : f0 ≤ 0 := by
  unfold constrainedFit at h
  split_ifs at h with h1 h2 h3
  · injection h with h
    have := congrArg Prod.fst h
    simp only at this
    rw [← this]
    exact h3
  · injection h with h
    have := congrArg Prod.fst h
    simp only at this
    rw [← this]

theorem fitCandidates_slope_nonpos (Id V : List ℚ) (ms : List ℕ)
    (l : List ((ℚ × ℚ) × ℚ)) (h : fitCandidates Id V ms = some l) :
    ∀ p ∈ l, p.1.1 ≤ 0 := by
  induction ms generalizing l with
  | nil =>
    rw [fitCandidates] at h
    injection h with h
    subst h
    intro p hp
    simp at hp
  | cons m ms ih =>
    rw [fitCandidates] at h
    rcases hf : constrainedFit (V.take m) (Id.take m) with _ | fit
    · rw [hf] at h
      simp at h
    · rcases hrest : fitCandidates Id V ms with _ | rest
      · rw [hf, hrest] at h
        simp at h
      · rw [hf, hrest] at h
        injection h with h
        subst h
        intro p hp
        rcases List.mem_cons.1 hp with h1 | h1
        · subst h1
          exact constrainedFit_slope_nonpos _ _ fit.1 fit.2 (by rw [hf])
        · exact ih rest hrest p h1

theorem list_getD_mem_or_eq (l : List ((ℚ × ℚ) × ℚ)) (n : ℕ)
    (d : (ℚ × ℚ) × ℚ) : l.getD n d ∈ l ∨ l.getD n d = d := by
  rw [List.getD_eq_getElem?_getD]
  rcases h : l[n]? with _ | a
  · right
    rfl
  · left
    show a ∈ l
    exact List.get?_mem (by rw [List.get?_eq_getElem?, h])

theorem minFitSelect_slope (q : Quad) (r : Option (List ((ℚ × ℚ) × ℚ)))
    (hall : ∀ l, r = some l → ∀ p ∈ l, p.1.1 ≤ 0) (f0 f1 : ℚ)
    (h : minFitSelect q r = some (f0, f1)) :
    (q = Quad.III → f0 ≤ 0) ∧ (q = Quad.I → 0 ≤ f0) := by
  rcases r with _ | l
  · rw [minFitSelect] at h
    exact absurd h (by simp)
  rcases l with _ | ⟨f, fs⟩
  · rw [minFitSelect] at h
    exact absurd h (by simp)
  have hsel : ((f :: fs).getD (npArgmin ((f :: fs).map Prod.snd))
      ((0, 0), 0)).1.1 ≤ 0 := by
    rcases list_getD_mem_or_eq (f :: fs)
        (npArgmin ((f :: fs).map Prod.snd)) ((0, 0), 0) with hm | hd
    · exact hall (f :: fs) rfl _ hm
    · rw [hd]
  rw [minFitSelect] at h
  rcases q with _ | _
  · rw [if_pos rfl] at h
    injection h with h
    have h0 := congrArg Prod.fst h
    simp only at h0
    constructor
    · intro hq
      exact Quad.noConfusion hq
    · intro _
      rw [← h0]
      linarith
  · rw [if_neg (by decide)] at h
    injection h with h
    have h0 := congrArg Prod.fst h
    simp only at h0
    constructor
    · intro _
      rw [← h0]
      exact hsel
    · intro hq
      exact Quad.noConfusion hq

theorem minFitCore_slope (fp : List ℚ → List ℚ → ℕ → List ℕ) (q : Quad)
    (Id V : List ℚ) (f0 f1 : ℚ) (h : minFitCore fp q Id V = some (f0, f1)) :
    (q = Quad.III → f0 ≤ 0) ∧ (q = Quad.I → 0 ≤ f0) := by
  unfold minFitCore at h
  refine minFitSelect_slope q _ ?_ f0 f1 h
  intro l hl p hp
  exact fitCandidates_slope_nonpos _ _ _ l hl p hp

/-- C2 (counterexample): a concrete quadrant-I run of `_min_fit` (one gm-peak
voltage +1, sqrt-current `[0, 1, 2, 3]` over voltages `[1, 2, 3, 4]`, a
single candidate at the full prefix) returns the fit `(1, -1)`: the returned
slope is positive — the slope bound applies before the quadrant-I sign
restore — and the intercept is negative — the scipy bounds
`([-inf, -inf], [0, inf])` leave `f1` unconstrained, they are not
`f1 ∈ [0, ∞)`. -/
theorem minFit_bounds_counterexample :
    minFit (fun _ _ _ => [4]) [1] [0, 1, 2, 3] [1, 2, 3, 4] = some (1, -1) ∧
      ¬ (1 : ℚ) ≤ 0 ∧ ¬ (0 : ℚ) ≤ (-1 : ℚ) := by
  refine ⟨by with_unfolding_all decide, by norm_num, by norm_num⟩

/-- C2 (amended): every candidate fit satisfies `f0 ≤ 0` (the bound
constraint), and the intercept is unconstrained; consequently the fit
returned by `_min_fit` has slope ≤ 0 when the quadrant is III, while in
quadrant I the slope is multiplied by -1 before returning, so the returned
slope is ≥ 0. -/
theorem minFit_slope_sign (fp : List ℚ → List ℚ → ℕ → List ℕ)
    (pks Id V : List ℚ) (f0 f1 : ℚ) (h : minFit fp pks Id V = some (f0, f1)) :
    (quadrantOf pks = some Quad.III → f0 ≤ 0) ∧
      (quadrantOf pks = some Quad.I → 0 ≤ f0) := by
  unfold minFit at h
  by_cases h3 : V.length < 3
  · rw [if_pos h3] at h
    exact absurd h (by simp)
  · rw [if_neg h3] at h
    rcases hq : quadrantOf pks with _ | q
    · rw [hq] at h
      simp at h
    · rw [hq] at h
      have h2 : (if V.getD 2 0 < V.getD 1 0 then minFitCore fp q Id.reverse V.reverse
          else minFitCore fp q Id V) = some (f0, f1) := h
      have key : (q = Quad.III → f0 ≤ 0) ∧ (q = Quad.I → 0 ≤ f0) := by
        by_cases hflip : V.getD 2 0 < V.getD 1 0
        · rw [if_pos hflip] at h2
          exact minFitCore_slope fp q Id.reverse V.reverse f0 f1 h2
        · rw [if_neg hflip] at h2
          exact minFitCore_slope fp q Id V f0 f1 h2
      constructor
      · intro hIII
        injection hIII with e
        exact key.1 e
      · intro hI
        injection hI with e
        exact key.2 e

/-- C2 (witness): a concrete quadrant-III run returning the exact fit
`(-1, -1)`, whose slope is indeed nonpositive by the theorem. -/
theorem minFit_slope_sign_witness :
    minFit (fun _ _ _ => [4]) [-1] [3, 2, 1, 0] [-4, -3, -2, -1] =
        some (-1, -1) ∧ (-1 : ℚ) ≤ 0 :=
  ⟨by with_unfolding_all decide,
   (minFit_slope_sign (fun _ _ _ => [4]) [-1] [3, 2, 1, 0] [-4, -3, -2, -1]
      (-1) (-1) (by with_unfolding_all decide)).1 (by with_unfolding_all decide)⟩

theorem threshAux_none_of_mem (fp : List ℚ → List ℚ → ℕ → List ℕ)
    (pks vlo : List ℚ) (prs : List (List ℚ × ℚ)) (col : List ℚ) (pk : ℚ)
    (hmem : (col, pk) ∈ prs) (hfail : threshOne fp pks vlo col pk = none) :
    threshAux fp pks vlo prs = none := by
  induction prs with
  | nil => simp at hmem
  | cons hd tl ih =>
    obtain ⟨c, p⟩ := hd
    rcases List.mem_cons.1 hmem with h1 | h1
    · injection h1 with e1 e2
      subst e1
      subst e2
      rw [threshAux, hfail]
    · rw [threshAux, ih h1]
      rcases threshOne fp pks vlo c p with _ | r <;> rfl

/-- C3 (counterexample): for a device with two transfer columns whose first
is the all-zero-current curve (the peak finder returns no candidates even
after the retry) and whose second fits a line exactly, `thresh` produces no
threshold array at all — the exception aborts the whole loop — rather than
an array of length 1 holding the second curve's threshold; the second column
alone does yield its threshold -1. -/
theorem thresh_abort_counterexample :
    threshRun fpEx [-1, -1] vloEx [colZero, colGood] = none ∧
      threshRun fpEx [-1, -1] vloEx [colGood] = some [(-1, 0)] := by
  refine ⟨by with_unfolding_all decide, by with_unfolding_all decide⟩

/-- C3 (amended): a failure in the threshold extraction of one transfer curve
(e.g. the peak finder returning no candidates) raises out of the unguarded
`thresh` loop: whenever any zipped (column, peak) pair fails, the entire
`thresh` call fails and no threshold array is produced for the device — the
remaining curves are not processed. -/
theorem thresh_abort_on_failure (fp : List ℚ → List ℚ → ℕ → List ℕ)
    (pks vlo : List ℚ) (cols : List (List ℚ)) (col : List ℚ) (pk : ℚ)
    (hmem : (col, pk) ∈ threshPairs cols pks)
    (hfail : threshOne fp pks vlo col pk = none) :
    threshRun fp pks vlo cols = none :=
  threshAux_none_of_mem fp pks vlo (threshPairs cols pks) col pk hmem hfail

/-- C3 (witness): the all-zero-current column makes its own device's `thresh`
call fail. -/
theorem thresh_abort_on_failure_witness :
    threshRun fpEx [-1, -1] vloEx [colZero] = none :=
  thresh_abort_on_failure fpEx [-1, -1] vloEx [colZero] colZero (-1)
    (by with_unfolding_all decide) (by with_unfolding_all decide)

theorem gmDerivRaw_length (v i : List ℚ) : (gmDerivRaw v i).length = v.length := by
  unfold gmDerivRaw
  rw [List.length_map, List.length_range]

/-- C8 (counterexample): with the reverse-processing option set False, a
sweep with a detected reverse leg still yields a nonempty backward gm curve:
the option is overwritten by `_reverse(transfer=True)`, and `_calc_gm` is
gated on the detection flag `self.reverse` alone. -/
theorem reverse_option_counterexample :
    (reverseSplit [(0 : ℚ), 1, 2, 1, 0]).2 = true ∧
      (splitThenGm gmDerivRaw false ⟨[0, 1, 2, 1, 0], [0, 1, 4, 1, 0]⟩).2 ≠ [] := by
  refine ⟨by with_unfolding_all decide, by with_unfolding_all decide⟩

/-- C8 (amended): the user-supplied reverse option has no effect on backward
gm production: the produced curves are identical for any two option values,
and whenever the splitter detects a reverse leg in a nonempty sweep a
nonempty backward gm curve is produced (for any derivative engine returning
one gm sample per voltage sample, as the spec requires of `gm_deriv`). -/
theorem reverse_option_overridden (g : List ℚ → List ℚ → List ℚ)
    (hg : ∀ v i, (g v i).length = v.length) (b1 b2 : Bool) (c : Curve) :
    splitThenGm g b1 c = splitThenGm g b2 c ∧
      ((reverseSplit c.v).2 = true → c.v ≠ [] →
        (splitThenGm g b1 c).2 ≠ []) := by
  constructor
  · rfl
  · intro hdet hne
    have hidx := reverseSplit_idx_of_true c.v hdet
    show (if (reverseSplit c.v).2 = true then
        g ((c.v.drop (reverseSplit c.v).1).reverse)
          ((c.i.drop (reverseSplit c.v).1).reverse)
      else []) ≠ []
    rw [if_pos hdet]
    apply ne_nil_of_length_ne_zero
    rw [hg, List.length_reverse, List.length_drop, hidx]
    have hvlen : c.v.length ≠ 0 := by
      intro hc
      exact hne (List.length_eq_zero.1 hc)
    omega

/-- C8 (witness): the palindromic sweep processed with option False and with
option True gives identical results, with a nonempty backward gm curve. -/
theorem reverse_option_overridden_witness :
    splitThenGm gmDerivRaw false ⟨[(0 : ℚ), 1, 2, 1, 0], [0, 1, 4, 1, 0]⟩ =
        splitThenGm gmDerivRaw true ⟨[(0 : ℚ), 1, 2, 1, 0], [0, 1, 4, 1, 0]⟩ ∧
      (splitThenGm gmDerivRaw false ⟨[(0 : ℚ), 1, 2, 1, 0], [0, 1, 4, 1, 0]⟩).2 ≠ [] :=
  ⟨(reverse_option_overridden gmDerivRaw gmDerivRaw_length false true
      ⟨[(0 : ℚ), 1, 2, 1, 0], [0, 1, 4, 1, 0]⟩).1,
   (reverse_option_overridden gmDerivRaw gmDerivRaw_length false true
      ⟨[(0 : ℚ), 1, 2, 1, 0], [0, 1, 4, 1, 0]⟩).2
     (by with_unfolding_all decide) (by with_unfolding_all decide)⟩

theorem calcGmsPeaks_eq_last (g : List ℚ → List ℚ → List ℚ) (st : OECTState)
    (curves : List Curve) (h : curves ≠ []) (pks : List (ℚ × ℚ))
    (hp : calcGmsPeaks g st curves = some pks) :
    calcGmPeaksOf g st (curves.getLast h) = some pks := by
  induction curves with
  | nil => exact absurd rfl h
  | cons c cs ih =>
    rcases cs with _ | ⟨c2, cs2⟩
    · exact hp
    · rw [calcGmsPeaks] at hp
      rcases hc : calcGmPeaksOf g st c with _ | pc
      · rw [hc] at hp
        exact absurd hp (by simp)
      · rw [hc] at hp
        have h2 : (c2 :: cs2 : List Curve) ≠ [] := by simp
        have hlast : (c :: c2 :: cs2 : List Curve).getLast h =
            (c2 :: cs2 : List Curve).getLast h2 := by
          rw [List.getLast_cons h2]
        rw [hlast]
        exact ih h2 hp

/-- C10 (amended): after `calc_gms`, the stored gm-peak record is exactly the
last transfer curve's peaks (each iteration overwrites the previous one), and
`thresh` zips the transfer columns with that record's peak voltages: every
processed pair carries a last-curve peak voltage, and the number of processed
columns is the minimum of the column count and the last curve's peak count —
when there are more columns than peaks, the later columns are not processed
at all. -/
theorem gm_peaks_overwrite (g : List ℚ → List ℚ → List ℚ) (st : OECTState)
    (curves : List Curve) (h : curves ≠ []) (pks : List (ℚ × ℚ))
    (hp : calcGmsPeaks g st curves = some pks) :
    calcGmPeaksOf g st (curves.getLast h) = some pks ∧
      ∀ cols : List (List ℚ),
        (threshPairs cols (pks.map Prod.fst)).length =
            min cols.length pks.length ∧
          ∀ col pk, (col, pk) ∈ threshPairs cols (pks.map Prod.fst) →
            pk ∈ pks.map Prod.fst := by
  refine ⟨calcGmsPeaks_eq_last g st curves h pks hp, ?_⟩
  intro cols
  constructor
  · unfold threshPairs
    rw [List.length_zip, List.length_map]
  · intro col pk hmem
    exact (List.of_mem_zip hmem).2

/-- C10 (counterexample): a device with two transfer curves (strictly
monotonic sweeps, no reverse legs) produces two transfer columns, but the
stored gm-peak record — the last curve's — has a single row `(0, 1/5)`, so
the zip in `thresh` pairs only one column: the second transfer column is not
paired with anything (much less with its own peak voltage), refuting that
every transfer curve is paired. -/
theorem gm_peaks_overwrite_counterexample :
    ((allTransfers st0ex [c1ex, c2ex]).2).length = 2 ∧
      calcGmsPeaks gmDerivRaw (allTransfers st0ex [c1ex, c2ex]).1 [c1ex, c2ex] =
        some [(0, 1 / 5)] ∧
      (threshPairs (((allTransfers st0ex [c1ex, c2ex]).2).map
          (fun s => s.map Prod.snd)) [(0 : ℚ)]).length = 1 := by
  refine ⟨by with_unfolding_all decide, by with_unfolding_all decide,
    by with_unfolding_all decide⟩

/-- C10 (witness): in the two-curve scenario the stored record equals the
last curve's peaks `[(0, 1/5)]`. -/
theorem gm_peaks_overwrite_witness :
    calcGmPeaksOf gmDerivRaw (allTransfers st0ex [c1ex, c2ex]).1 c2ex =
      some [(0, 1 / 5)] :=
  (gm_peaks_overwrite gmDerivRaw (allTransfers st0ex [c1ex, c2ex]).1
    [c1ex, c2ex] (by simp) [(0, 1 / 5)] (by with_unfolding_all decide)).1

theorem sum_sq_line_decomp (l : List (ℚ × ℚ)) (a b xb yb : ℚ) :
    (l.map (fun p => (p.2 - lineF p.1 a b) ^ 2)).sum =
      (l.map (fun p => (p.2 - yb) ^ 2)).sum
        - 2 * a * (l.map (fun p => (p.1 - xb) * (p.2 - yb))).sum
        + a ^ 2 * (l.map (fun p => (p.1 - xb) ^ 2)).sum
        + 2 * (yb - a * xb - b) *
            (l.map (fun p => (p.2 - yb) - a * (p.1 - xb))).sum
        + l.length * (yb - a * xb - b) ^ 2 := by
  induction l with
  | nil => simp
  | cons x t ih =>
    rw [List.map_cons, List.sum_cons, List.map_cons, List.sum_cons,
      List.map_cons, List.sum_cons, List.map_cons, List.sum_cons,
      List.map_cons, List.sum_cons, ih, List.length_cons]
    unfold lineF
    push_cast
    ring

theorem sum_linear_decomp (l : List (ℚ × ℚ)) (a xb yb : ℚ) :
    (l.map (fun p => (p.2 - yb) - a * (p.1 - xb))).sum =
      (l.map Prod.snd).sum - l.length * yb
        - a * ((l.map Prod.fst).sum - l.length * xb) := by
  induction l with
  | nil => simp
  | cons x t ih =>
    rw [List.map_cons, List.sum_cons, List.map_cons, List.sum_cons,
      List.map_cons, List.sum_cons, ih, List.length_cons]
    push_cast
    ring

theorem sum_centered_zero (pts : List (ℚ × ℚ)) (a : ℚ)
    (hn : (pts.length : ℚ) ≠ 0) :
    (pts.map (fun p => (p.2 - fitYbar pts) - a * (p.1 - fitXbar pts))).sum = 0 := by
  rw [sum_linear_decomp pts a (fitXbar pts) (fitYbar pts)]
  unfold fitXbar fitYbar
  field_simp

theorem fitSxx_nonneg (pts : List (ℚ × ℚ)) : 0 ≤ fitSxx pts := by
  unfold fitSxx
  apply List.sum_nonneg
  intro x hx
  obtain ⟨p, hp, he⟩ := List.mem_map.1 hx
  rw [← he]
  positivity

theorem fitSSE_decomp (pts : List (ℚ × ℚ)) (a b : ℚ)
    (hn : (pts.length : ℚ) ≠ 0) :
    fitSSE pts a b =
      (pts.map (fun p => (p.2 - fitYbar pts) ^ 2)).sum
        - 2 * a * fitSxy pts + a ^ 2 * fitSxx pts
        + pts.length * (fitYbar pts - a * fitXbar pts - b) ^ 2 := by
  unfold fitSSE fitSxy fitSxx
  rw [sum_sq_line_decomp pts a b (fitXbar pts) (fitYbar pts),
    sum_centered_zero pts a hn]
  ring

/-- Optimality of the closed form used for the bounded scipy fit: whatever
`constrainedFit` returns minimises the sum of squared residuals among all
parameter pairs obeying the slope bound `a ≤ 0`.  This certifies the closed
form as the exact semantics of
`cf(line_f, V, Id, bounds=([-inf, -inf], [0, inf]))`. -/
theorem constrainedFit_minimizes (V Id : List ℚ) (f0 f1 a b : ℚ)
    (h : constrainedFit V Id = some (f0, f1)) (ha : a ≤ 0) :
    fitSSE (V.zip Id) f0 f1 ≤ fitSSE (V.zip Id) a b := by
  have hcond : ¬ (V.zip Id).length < 2 ∧ fitSxx (V.zip Id) ≠ 0 := by
    unfold constrainedFit at h
    split_ifs at h with h1 h2 h3
    · exact ⟨h1, h2⟩
    · exact ⟨h1, h2⟩
  have hn : ((V.zip Id).length : ℚ) ≠ 0 := by
    have hl : (V.zip Id).length ≠ 0 := by
      have := hcond.1
      omega
    exact_mod_cast hl
  have hSxx : 0 < fitSxx (V.zip Id) :=
    lt_of_le_of_ne (fitSxx_nonneg _) (Ne.symm hcond.2)
  have hnn : (0 : ℚ) ≤ ((V.zip Id).length : ℚ) := Nat.cast_nonneg _
  rw [fitSSE_decomp (V.zip Id) a b hn, fitSSE_decomp (V.zip Id) f0 f1 hn]
  unfold constrainedFit at h
  split_ifs at h with h1 h2 h3
  · -- unconstrained OLS slope nonpositive: the OLS optimum is returned
    injection h with h
    have hf0 : fitSxy (V.zip Id) / fitSxx (V.zip Id) = f0 := congrArg Prod.fst h
    have hf1 : fitYbar (V.zip Id)
        - fitSxy (V.zip Id) / fitSxx (V.zip Id) * fitXbar (V.zip Id) = f1 :=
      congrArg Prod.snd h
    have hsub : fitSxy (V.zip Id) = f0 * fitSxx (V.zip Id) := by
      rw [← hf0]
      field_simp
    have hzero : fitYbar (V.zip Id) - f0 * fitXbar (V.zip Id) - f1 = 0 := by
      rw [← hf1, ← hf0]
      ring
    rw [hzero, hsub]
    nlinarith [mul_nonneg (le_of_lt hSxx) (sq_nonneg (a - f0)),
      mul_nonneg hnn (sq_nonneg (fitYbar (V.zip Id) - a * fitXbar (V.zip Id) - b))]
  · -- OLS slope positive: the slope is clamped to 0, intercept to the mean
    injection h with h
    have hf0 : (0 : ℚ) = f0 := congrArg Prod.fst h
    have hf1 : fitYbar (V.zip Id) = f1 := congrArg Prod.snd h
    have hxy : 0 < fitSxy (V.zip Id) := by
      push_neg at h3
      have := (div_pos_iff.1 (lt_of_lt_of_le h3 (le_refl _)))
      rcases this with ⟨hp, _⟩ | ⟨_, hq⟩
      · exact hp
      · exact absurd hSxx (by linarith)
    rw [← hf0, ← hf1]
    nlinarith [mul_nonneg (le_of_lt hSxx) (sq_nonneg a),
      mul_nonneg hnn (sq_nonneg (fitYbar (V.zip Id) - a * fitXbar (V.zip Id) - b)),
      mul_nonneg (neg_nonneg.2 ha) (le_of_lt hxy)]

end OECTProc
